import Mathlib

/-!
Verification of the MorseFocus core against its specification.

The C sources are shallowly embedded as Lean functions:

* machine integers are modelled as `Nat`/`Int` (no overflow is reachable in
  the verified fragments);
* C `float` arithmetic is modelled exactly over `ℚ` (the idealised real
  semantics the specification describes);
* the per-character weight array `r->weights` is mutated by `++` operations
  only; we model each `weights[k]++` as appending the written index `k` to a
  write trace (`List ℤ`), so the final vector is the initial one plus the
  multiset of traced indices, and an out-of-bounds write is visible as a
  traced index outside `[0, 41]`;
* fallible functions return `Option`;
* C `while` loops are modelled either by structural recursion or by an
  explicit iteration budget (fuel) that provably dominates the number of
  iterations the C loop can perform.
-/

namespace MorseFocus

/-! ### CharacterCodec (src str.c, `str_char_to_int`) -/

/-- Embedding of `str_char_to_int` from str.c: digits map to 0..9, lowercase
letters to 10..35, the six symbols to 36..41, everything else to -1. -/
def str_char_to_int (ch : Char) : ℤ :=
  if '0' ≤ ch ∧ ch ≤ '9' then (ch.toNat : ℤ) - ('0'.toNat : ℤ)
  else if 'a' ≤ ch ∧ ch ≤ 'z' then 10 + ((ch.toNat : ℤ) - ('a'.toNat : ℤ))
  else if ch = '.' then 36
  else if ch = '=' then 37
  else if ch = ',' then 38
  else if ch = '/' then 39
  else if ch = '?' then 40
  else if ch = Char.ofNat 39 then 41
  else -1

/-! ### EditScorer (src/modules/diff.c, `lev_diff`) -/

/-- The substitution cost used in diff.c:
`cost = (s1[i-1] == s2[j-1]) ? 0 : 1`. -/
def levCost (a b : Char) : ℕ := if a = b then 0 else 1

/-- One pass of the inner fill loop of `lev_diff` (diff.c): given the
character `x = s1[i-1]`, the remaining characters of `s2`, the entries
`dp[i-1][j..]` of the previous row (with `up = dp[i-1][j]` at the head),
the diagonal value `diag = dp[i-1][j-1]` and the value to the left
`left = dp[i][j-1]`, produce the entries `dp[i][j..]` of the current row:
`dp[i][j] = min(dp[i-1][j] + 1, min(dp[i][j-1] + 1, dp[i-1][j-1] + cost))`. -/
def fillCells (x : Char) : List Char → List ℕ → ℕ → ℕ → List ℕ
  | y :: ys, up :: ups, diag, left =>
    let cell := min (up + 1) (min (left + 1) (diag + levCost x y))
    cell :: fillCells x ys ups up cell
  | _, _, _, _ => []

/-- The outer fill loop of `lev_diff`: build all rows of the DP matrix,
starting from a given previous row.  Row `i` starts with `dp[i][0] = i` and
continues with `fillCells`. -/
def levRows (s2 : List Char) : List Char → ℕ → List ℕ → List (List ℕ)
  | [], _, prev => [prev]
  | x :: xs, i, prev =>
    prev :: levRows s2 xs (i + 1) (i :: fillCells x s2 (prev.drop 1) (prev.headD 0) i)

/-- The DP matrix of `lev_diff`: row 0 is `dp[0][j] = j`, and the remaining
rows are produced by the fill loop. -/
def levMatrix (s1 s2 : List Char) : List (List ℕ) :=
  levRows s2 s1 1 (List.range (s2.length + 1))

/-- `dpv s1 s2 i j` is the matrix entry `dp[i][j]` of `lev_diff`. -/
def dpv (s1 s2 : List Char) (i j : ℕ) : ℕ :=
  ((levMatrix s1 s2).getD i []).getD j 0

/-- The backtracking loop of `lev_diff` (diff.c, `while (i > 0 || j > 0)`),
returning the trace of indices written by `r->weights[...]++`, in execution
order.  The first argument is an iteration budget; the C loop performs at
most `i + j` iterations, so the budget `i + j` used by `lev_diff` below is
never exhausted. -/
def backtrack (s1 s2 : List Char) : ℕ → ℕ → ℕ → List ℤ
  | 0, _, _ => []
  | _ + 1, 0, 0 => []
  | f + 1, i, j =>
    if i > 0 ∧ j > 0 ∧
        dpv s1 s2 i j = dpv s1 s2 (i - 1) (j - 1)
          + levCost (s1.getD (i - 1) ' ') (s2.getD (j - 1) ' ') then
      (if s1.getD (i - 1) ' ' ≠ s2.getD (j - 1) ' ' then
        [str_char_to_int (s1.getD (i - 1) ' '), str_char_to_int (s2.getD (j - 1) ' ')]
      else []) ++ backtrack s1 s2 f (i - 1) (j - 1)
    else if i > 0 ∧ dpv s1 s2 i j = dpv s1 s2 (i - 1) j + 1 then
      str_char_to_int (s1.getD (i - 1) ' ') :: backtrack s1 s2 f (i - 1) j
    else
      str_char_to_int (s2.getD (j - 1) ' ') :: backtrack s1 s2 f i (j - 1)

/-- Embedding of `lev_diff` from src/modules/diff.c: `none` models the
`return -1` on a zero-length input; on success it returns the distance
`dp[len1][len2]` together with the trace of weight-array writes performed
by the backtracking loop. -/
def lev_diff (s1 s2 : List Char) : Option (ℕ × List ℤ) :=
  if s1.length = 0 ∨ s2.length = 0 then none
  else some (dpv s1 s2 s1.length s2.length,
             backtrack s1 s2 (s1.length + s2.length) s1.length s2.length)

/-- The reference edit distance: Mathlib's Levenshtein distance with unit
cost for insertion, deletion and substitution. -/
def lev (xs ys : List Char) : ℕ :=
  levenshtein Levenshtein.defaultCost xs ys

/-- The textbook recurrence for the Levenshtein distance (recursion on the
first characters); proved below to agree with Mathlib's `levenshtein` under
the unit cost structure. -/
def levR : List Char → List Char → ℕ
  | [], ys => ys.length
  | x :: xs, [] => (x :: xs).length
  | x :: xs, y :: ys =>
    min (levR xs (y :: ys) + 1) (min (levR (x :: xs) ys + 1) (levR xs ys + levCost x y))

/-- Proof artefact: the reference distances
`levR a (zs ++ take 1 ys), levR a (zs ++ take 2 ys), ...`, i.e. one DP row of
reference values at the prefixes of `zs ++ ys` properly extending `zs`. -/
def rowVals (a : List Char) : List Char → List Char → List ℕ
  | _, [] => []
  | zs, y :: ys => levR a (zs ++ [y]) :: rowVals a (zs ++ [y]) ys

/-- Proof artefact: the full reference DP row for left prefix `a`:
`levR a [], levR a (take 1 s2), ..., levR a s2`. -/
def fullRow (a s2 : List Char) : List ℕ :=
  a.length :: rowVals a [] s2


/-! ### MorseCodec (src/source/cw.c and src/modules/cw.c) -/

/-- ASCII `toupper` as used on the input characters (both cw.c versions
uppercase only the range a..z). -/
def upperAscii (c : Char) : Char :=
  if 'a' ≤ c ∧ c ≤ 'z' then Char.ofNat (c.toNat - 32) else c

/-- The `morse_table` of cw.c, as the association list of its populated
entries; a character outside the list (including every byte at or beyond the
table size) yields NULL in C and `none` here. -/
def morse_table : List (Char × List Char) := [
  ('A', ".-".data),
  ('B', "-...".data),
  ('C', "-.-.".data),
  ('D', "-..".data),
  ('E', ".".data),
  ('F', "..-.".data),
  ('G', "--.".data),
  ('H', "....".data),
  ('I', "..".data),
  ('J', ".---".data),
  ('K', "-.-".data),
  ('L', ".-..".data),
  ('M', "--".data),
  ('N', "-.".data),
  ('O', "---".data),
  ('P', ".--.".data),
  ('Q', "--.-".data),
  ('R', ".-.".data),
  ('S', "...".data),
  ('T', "-".data),
  ('U', "..-".data),
  ('V', "...-".data),
  ('W', ".--".data),
  ('X', "-..-".data),
  ('Y', "-.--".data),
  ('Z', "--..".data),
  ('0', "-----".data),
  ('1', ".----".data),
  ('2', "..---".data),
  ('3', "...--".data),
  ('4', "....-".data),
  ('5', ".....".data),
  ('6', "-....".data),
  ('7', "--...".data),
  ('8', "---..".data),
  ('9', "----.".data),
  ('.', ".-.-.-".data),
  (',', "--..--".data),
  ('?', "..--..".data),
  (Char.ofNat 39, ".----.".data),
  ('!', "-.-.--".data),
  ('/', "-..-.".data),
  ('(', "-.--.".data),
  (')', "-.--.-".data),
  ('&', ".-...".data),
  (':', "---...".data),
  (';', "-.-.-.".data),
  ('=', "-...-".data),
  ('+', ".-.-.".data),
  ('-', "-....-".data),
  ('_', "..--.-".data),
  ('\"', ".-..-.".data),
  ('$', "...-..-".data),
  ('@', ".--.-.".data)]

/-- Table lookup `morse_table[toupper(c)]` of cw.c. -/
def morse_lookup (c : Char) : Option (List Char) :=
  morse_table.lookup (upperAscii c)

/-- The loop of `ascii_to_morse_expanded` (cw.c); the Boolean is the
`first_char` flag (true means: no pattern emitted since the last space or
the start of the input). -/
def expandAux : List Char → Bool → List Char
  | [], _ => []
  | c :: rest, first =>
    if c = ' ' then
      (if first = false then ['/'] else []) ++ expandAux rest true
    else
      match morse_lookup c with
      | none => expandAux rest first
      | some mc => (if first = false then ['|'] else []) ++ mc ++ expandAux rest false

/-- Embedding of `ascii_to_morse_expanded` from cw.c. -/
def ascii_to_morse_expanded (input : List Char) : List Char :=
  expandAux input true

/-- The `p[1] == '.' || p[1] == '-'` inter-element-gap test of
`count_units`/`cw_duration` (cw.c); the end of the string plays the role of
the terminating NUL. -/
def gapAfter (rest : List Char) : ℕ :=
  if rest.headD ' ' = '.' ∨ rest.headD ' ' = '-' then 1 else 0

/-- Embedding of `count_units` from src/source/cw.c; `none` models the
`return -1` on a symbol outside the known alphabet. -/
def count_units : List Char → Option ℕ
  | [] => some 0
  | c :: rest =>
    if c = '.' then (count_units rest).map (fun u => 1 + gapAfter rest + u)
    else if c = '-' then (count_units rest).map (fun u => 3 + gapAfter rest + u)
    else if c = '|' then (count_units rest).map (fun u => 3 + u)
    else if c = '/' then
      (count_units rest).map (fun u => (if rest = [] then 0 else 7) + u)
    else none

/-- The symbol walk of `cw_duration` (src/source/cw.c, lines 331-355), with
float arithmetic idealised over ℚ. -/
def durWalk (dot_dur gap_dur : ℚ) : List Char → Option ℚ
  | [] => some 0
  | c :: rest =>
    if c = '.' then
      (durWalk dot_dur gap_dur rest).map
        (fun t => dot_dur + (if rest.headD ' ' = '.' ∨ rest.headD ' ' = '-' then dot_dur else 0) + t)
    else if c = '-' then
      (durWalk dot_dur gap_dur rest).map
        (fun t => 3 * dot_dur
          + (if rest.headD ' ' = '.' ∨ rest.headD ' ' = '-' then dot_dur else 0) + t)
    else if c = '|' then (durWalk dot_dur gap_dur rest).map (fun t => 3 * gap_dur + t)
    else if c = '/' then
      (durWalk dot_dur gap_dur rest).map (fun t => (if rest = [] then 0 else 7 * gap_dur) + t)
    else none

/-- Embedding of `cw_duration` from src/source/cw.c: the validation prefix
rejects non-positive speeds and `speed1 < speed2` before any duration is
computed. -/
def cw_duration (str : List Char) (speed1 speed2 : ℚ) : Option ℚ :=
  if speed1 ≤ 0 ∨ speed2 ≤ 0 ∨ speed1 < speed2 then none
  else durWalk (60 / (50 * speed1)) (60 / (50 * speed2)) (ascii_to_morse_expanded str)

/-- The parameter validation prefix of `cw_play` in src/modules/cw.c
(lines 235-239): `true` means validation passes and the function goes on to
initialise the audio device and request frames.  Note it does NOT compare
`speed1` with `speed2`. -/
def cw_play_proceeds (speed1 speed2 freq amp : ℚ) : Bool :=
  if speed1 ≤ 0 ∨ speed2 ≤ 0 ∨ freq ≤ 0 ∨ amp ≤ 0 then false else true

/-- The parameter validation prefix of `cw_play` in src/source/cw.c
(lines 271-286), which additionally rejects `speed1 < speed2`. -/
def cw_play_src_proceeds (speed1 speed2 freq amp : ℚ) : Bool :=
  if speed1 ≤ 0 ∨ speed2 ≤ 0 ∨ freq ≤ 0 ∨ amp ≤ 0 then false
  else if speed1 < speed2 then false
  else true

/-- Modelled from the spec: split an input at literal spaces into the list
of its words (maximal space-free runs; empty words record consecutive,
leading or trailing spaces). -/
def splitSp : List Char → List (List Char)
  | [] => [[]]
  | c :: rest =>
    if c = ' ' then [] :: splitSp rest
    else
      match splitSp rest with
      | [] => [[c]]
      | w :: ws => (c :: w) :: ws

/-- Modelled from the spec: expansion of one word, each supported character
mapped to its pattern via table lookup, unsupported characters silently
skipped, and the inter-character marker placed between consecutive
patterns. -/
def wordExpand : List Char → List Char
  | [] => []
  | c :: rest =>
    match morse_lookup c with
    | none => wordExpand rest
    | some mc => mc ++ (if wordExpand rest = [] then [] else '|' :: wordExpand rest)

/-- Modelled from the spec (as amended): join word expansions with the
inter-word marker, placing a marker after every word whose expansion is
non-empty and which is followed by a space — including a word at the end of
the input that is followed only by spaces or unsupported characters. -/
def joinMorse : List (List Char) → List Char
  | [] => []
  | [e] => e
  | e :: e2 :: rest => e ++ (if e = [] then [] else ['/']) ++ joinMorse (e2 :: rest)

/-- Proof artefact: the continuation of `joinMorse` when a pattern has
already been emitted since the last space (`first_char == 0`): the next
pattern gets an inter-character marker, and the next space always gets an
inter-word marker. -/
def joinMorseCont : List (List Char) → List Char
  | [] => []
  | [e] => (if e = [] then [] else ['|']) ++ e
  | e :: e2 :: rest => (if e = [] then [] else ['|']) ++ e ++ ['/'] ++ joinMorse (e2 :: rest)

/-- Modelled from the spec: the timing units charged to one symbol of the
expanded stream given the following symbol (`none` at the end of the
stream): a dot is 1 unit plus an inter-element gap unit when immediately
followed by a dot or dash, a dash 3 units plus the same gap rule, the
inter-character marker 3 units, and the inter-word marker 7 units unless it
is the last symbol. -/
def symCharge (c : Char) (next : Option Char) : ℕ :=
  if c = '.' then 1 + (if next = some '.' ∨ next = some '-' then 1 else 0)
  else if c = '-' then 3 + (if next = some '.' ∨ next = some '-' then 1 else 0)
  else if c = '|' then 3
  else if c = '/' then (if next = none then 0 else 7)
  else 0

/-- Modelled from the spec: total timing units of a symbol stream. -/
def unitsSpec : List Char → ℕ
  | [] => 0
  | c :: rest => symCharge c rest.head? + unitsSpec rest


/-! ### TextGenerator (src/modules/gen.c, `gen_chars`) -/

/-- The sanity ceiling `GEN_MAX` from gen.h. -/
def GEN_MAX : ℕ := 100000

/-- `MAX_CHARSET_LEN` from str.h. -/
def MAX_CHARSET_LEN : ℕ := 50

/-- The `default_charset` literal of `gen_chars`. -/
def default_charset : List Char :=
  "kmuresnaptlwi.jz=foy,vg5/q92h38b?47c1d60x".data

/-- Embedding of `str_is_clean` from str.c: the loop inspects at most the
first `MAX_CHARSET_LEN` characters (stopping early at the terminating NUL,
i.e. the end of the string) and reports failure only if one of them is
unsupported.  Characters beyond position `MAX_CHARSET_LEN - 1` are never
looked at. -/
def str_is_clean (s : List Char) : Bool :=
  (s.take MAX_CHARSET_LEN).all (fun c => decide (0 ≤ str_char_to_int c))

/-- The weight-lookup loop of the weighted path of `gen_chars`
(gen.c lines 81-94): each charset character is converted with
`str_char_to_int`; a negative index aborts (`none`), otherwise the weight at
that index is collected. -/
def lookupWeights (w : ℕ → ℚ) : List Char → Option (List ℚ)
  | [] => some []
  | c :: cs =>
    if str_char_to_int c < 0 then none
    else (lookupWeights w cs).map (fun tl => w (str_char_to_int c).toNat :: tl)

/-- The running prefix sums `accum` of the CDF loop of `gen_chars`. -/
def prefixSums : List ℚ → ℚ → List ℚ
  | [], _ => []
  | x :: xs, acc => (acc + x) :: prefixSums xs (acc + x)

/-- The CDF array of `gen_chars`: `cdf[j] = accum_j / sum`. -/
def cdfOf (tmp : List ℚ) (sum : ℚ) : List ℚ :=
  (prefixSums tmp 0).map (fun a => a / sum)

/-- The lower-bound binary search of the weighted path of `gen_chars`
(gen.c lines 131-138): `while (lo < hi) { mid = (lo+hi)/2;
if (cdf[mid] < r) lo = mid+1; else hi = mid; }`.  The first argument is an
iteration budget; the callers pass the charset length, which strictly
dominates the number of iterations (each iteration shrinks `hi - lo`). -/
def lowerBound (cdf : List ℚ) (r : ℚ) : ℕ → ℕ → ℕ → ℕ
  | 0, lo, _ => lo
  | f + 1, lo, hi =>
    if lo < hi then
      if cdf.getD ((lo + hi) / 2) 0 < r then lowerBound cdf r f ((lo + hi) / 2 + 1) hi
      else lowerBound cdf r f lo ((lo + hi) / 2)
    else lo

/-- One character draw of the emission loop of `gen_chars`: the unweighted
path computes `charset[(int)(r * charset_len)]`, the weighted path
`charset[lo]` with `lo` found by the binary search over the charset-sized
CDF array.  The C truncation of a non-negative float to int is `Nat.floor`
over ℚ. -/
def drawChar (charset : List Char) (cdf : Option (List ℚ)) (r : ℚ) : Char :=
  match cdf with
  | none => charset.getD (⌊r * charset.length⌋₊) ' '
  | some cdf => charset.getD (lowerBound cdf r charset.length 0 (charset.length - 1)) ' '

/-- The inner `for (i = 0; i < wlen && written < num_char - 2; i++)` loop of
`gen_chars` (lines 124-142): emit up to `wlen` drawn characters while the
write position stays below `num_char - 2`.  Returns the extended output and
the updated random-stream position. -/
def emitWord (rand : ℕ → ℚ) (draw : ℚ → Char) (num_char : ℕ) :
    ℕ → ℕ → List Char → List Char × ℕ
  | 0, t, out => (out, t)
  | n + 1, t, out =>
    if out.length < num_char - 2 then
      emitWord rand draw num_char n (t + 1) (out ++ [draw (rand t)])
    else (out, t)

/-- The word-length computation of one iteration of `gen_chars`
(lines 120-122): `wlen = min_word + (int)(gen_rand() * (max_word - min_word + 1))`,
clamped to the remaining budget `num_char - 1 - written`.  The C truncation
of the non-negative float product to int is `Nat.floor` over ℚ. -/
def wordLen (r : ℚ) (mw Mw budget : ℕ) : ℕ :=
  if mw + ⌊r * ((Mw : ℚ) - (mw : ℚ) + 1)⌋₊ > budget then budget
  else mw + ⌊r * ((Mw : ℚ) - (mw : ℚ) + 1)⌋₊

/-- The outer `while (written < num_char - 1)` loop of `gen_chars`
(lines 118-148): draw a word length, emit the word, then emit a separating
space if the write position stays below `num_char - 2`, else stop.  The
first argument is an iteration budget (`gen_chars` passes `num_char`, which
dominates the number of iterations since every continuing iteration stores
at least two characters); `none` on exhaustion is unreachable from
`gen_chars`. -/
def genLoop (rand : ℕ → ℚ) (draw : ℚ → Char) (num_char mw Mw : ℕ) :
    ℕ → ℕ → List Char → Option (List Char)
  | 0, _, _ => none
  | f + 1, t, out =>
    if out.length < num_char - 1 then
      match emitWord rand draw num_char
          (wordLen (rand t) mw Mw (num_char - 1 - out.length)) (t + 1) out with
      | (out2, t2) =>
        if out2.length < num_char - 2 then
          genLoop rand draw num_char mw Mw f t2 (out2 ++ [' '])
        else some out2
    else some out

/-- Embedding of `gen_chars` from src/modules/gen.c.  The output buffer is
modelled as the list of characters written before the terminating NUL;
`none` models every `return -1`.  `rand` is the stream of `gen_rand()`
values (floats in [0,1), idealised over ℚ); `weights` is the nullable
weight array, indexed by character index; `charset0` is the nullable
charset argument. -/
def gen_chars (rand : ℕ → ℚ) (num_char : ℕ) (min_word max_word : ℤ)
    (weights : Option (ℕ → ℚ)) (charset0 : Option (List Char)) : Option (List Char) :=
  if min_word < 1 ∨ max_word < 1 ∨ min_word > max_word then none
  else if num_char > GEN_MAX then none
  else if min_word > (GEN_MAX : ℤ) then none
  else if max_word > (GEN_MAX : ℤ) then none
  else if num_char < 2 then none
  else
    if str_is_clean (charset0.getD default_charset) = false then none
    else if (charset0.getD default_charset).length = 0 then none
    else
      match weights with
      | none =>
        genLoop rand (drawChar (charset0.getD default_charset) none) num_char
          min_word.toNat max_word.toNat num_char 0 []
      | some w =>
        match lookupWeights w (charset0.getD default_charset) with
        | none => none
        | some tmp =>
          if tmp.sum = 0 then none
          else
            genLoop rand
              (drawChar (charset0.getD default_charset) (some (cdfOf tmp tmp.sum)))
              num_char min_word.toNat max_word.toNat num_char 0 []

/-- Modelled from the spec (as amended): space-separated words, with a
single separating space between consecutive words and, when `trail` is
true, one trailing space. -/
def joinWords : List (List Char) → Bool → List Char
  | [], _ => []
  | [w], trail => w ++ (if trail then [' '] else [])
  | w :: w2 :: ws, trail => w ++ [' '] ++ joinWords (w2 :: ws) trail

end MorseFocus

namespace MorseFocus

/-! ### Reference-distance lemmas -/

theorem levR_nil_left (ys : List Char) : levR [] ys = ys.length := by
  cases ys <;> simp [levR]

theorem levR_nil_right (xs : List Char) : levR xs [] = xs.length := by
  cases xs <;> simp [levR]

theorem levR_cons_cons (x y : Char) (xs ys : List Char) :
    levR (x :: xs) (y :: ys) =
      min (levR xs (y :: ys) + 1) (min (levR (x :: xs) ys + 1) (levR xs ys + levCost x y)) := by
  simp [levR]

theorem lev_nil_left (ys : List Char) : lev [] ys = ys.length := by
  induction ys with
  | nil => simp [lev]
  | cons y ys ih => simp [lev, Levenshtein.defaultCost] at ih ⊢; omega

theorem lev_nil_right (xs : List Char) : lev xs [] = xs.length := by
  induction xs with
  | nil => simp [lev]
  | cons x xs ih => simp [lev, Levenshtein.defaultCost] at ih ⊢; omega

theorem lev_cons_cons (x y : Char) (xs ys : List Char) :
    lev (x :: xs) (y :: ys) =
      min (lev xs (y :: ys) + 1)
        (min (lev (x :: xs) ys + 1) (lev xs ys + levCost x y)) := by
  simp only [lev, levenshtein_cons_cons, Levenshtein.defaultCost, levCost]
  split <;> omega

theorem levR_eq_lev (xs ys : List Char) : levR xs ys = lev xs ys := by
  suffices h : ∀ (n : ℕ) (xs ys : List Char), xs.length + ys.length ≤ n →
      levR xs ys = lev xs ys from h (xs.length + ys.length) xs ys le_rfl
  intro n
  induction n with
  | zero =>
    intro xs ys h
    rw [Nat.le_zero, Nat.add_eq_zero] at h
    rw [List.length_eq_zero.mp h.1, List.length_eq_zero.mp h.2]
    simp [levR, lev]
  | succ n ih =>
    intro xs ys h
    cases xs with
    | nil => rw [levR_nil_left, lev_nil_left]
    | cons x xs =>
      cases ys with
      | nil => rw [levR_nil_right, lev_nil_right]
      | cons y ys =>
        simp only [List.length_cons] at h
        rw [levR_cons_cons,
          ih xs (y :: ys) (by simp; omega),
          ih (x :: xs) ys (by simp; omega),
          ih xs ys (by omega),
          lev_cons_cons]

theorem levR_self (xs : List Char) : levR xs xs = 0 := by
  induction xs with
  | nil => simp [levR]
  | cons x xs ih => rw [levR_cons_cons]; simp [levCost, ih]

theorem levCost_comm (x y : Char) : levCost x y = levCost y x := by
  simp [levCost, eq_comm]

theorem levR_symm (xs ys : List Char) : levR xs ys = levR ys xs := by
  suffices h : ∀ (n : ℕ) (xs ys : List Char), xs.length + ys.length ≤ n →
      levR xs ys = levR ys xs from h (xs.length + ys.length) xs ys le_rfl
  intro n
  induction n with
  | zero =>
    intro xs ys h
    rw [Nat.le_zero, Nat.add_eq_zero] at h
    rw [List.length_eq_zero.mp h.1, List.length_eq_zero.mp h.2]
  | succ n ih =>
    intro xs ys h
    cases xs with
    | nil => rw [levR_nil_left, levR_nil_right]
    | cons x xs =>
      cases ys with
      | nil => rw [levR_nil_left, levR_nil_right]
      | cons y ys =>
        simp only [List.length_cons] at h
        rw [levR_cons_cons, levR_cons_cons,
          ih xs (y :: ys) (by simp; omega),
          ih (x :: xs) ys (by simp; omega),
          ih xs ys (by omega),
          levCost_comm]
        omega

theorem levR_snoc (x y : Char) (a b : List Char) :
    levR (a ++ [x]) (b ++ [y]) =
      min (levR a (b ++ [y]) + 1)
        (min (levR (a ++ [x]) b + 1) (levR a b + levCost x y)) := by
  suffices h : ∀ (n : ℕ) (a b : List Char), a.length + b.length ≤ n →
      levR (a ++ [x]) (b ++ [y]) =
        min (levR a (b ++ [y]) + 1)
          (min (levR (a ++ [x]) b + 1) (levR a b + levCost x y)) from
    h (a.length + b.length) a b le_rfl
  intro n
  induction n with
  | zero =>
    intro a b h
    rw [Nat.le_zero, Nat.add_eq_zero] at h
    rw [List.length_eq_zero.mp h.1, List.length_eq_zero.mp h.2]
    simp only [List.nil_append]
    rw [levR_cons_cons]
  | succ n ih =>
    intro a b h
    cases a with
    | nil =>
      cases b with
      | nil =>
        simp only [List.nil_append]
        rw [levR_cons_cons]
      | cons y' b' =>
        simp only [List.length_cons, List.length_nil] at h
        have hIH := ih [] b' (by simp; omega)
        simp only [List.nil_append] at hIH
        have e0 := levR_cons_cons x y' [] (b' ++ [y])
        have e1 := levR_cons_cons x y' [] b'
        simp only [List.nil_append, List.cons_append] at e0 e1 ⊢
        rw [e0, e1, hIH]
        simp only [levR_nil_left, List.length_append, List.length_cons, List.length_nil]
        omega
    | cons x' a' =>
      cases b with
      | nil =>
        simp only [List.length_cons, List.length_nil] at h
        have hIH := ih a' [] (by simp; omega)
        simp only [List.nil_append] at hIH
        have e0 := levR_cons_cons x' y (a' ++ [x]) []
        have e1 := levR_cons_cons x' y a' []
        simp only [List.nil_append, List.cons_append] at e0 e1 ⊢
        rw [e0, e1, hIH]
        simp only [levR_nil_right, List.length_append, List.length_cons, List.length_nil]
        omega
      | cons y' b' =>
        simp only [List.length_cons] at h
        have hA := ih a' (y' :: b') (by simp; omega)
        have hB := ih (x' :: a') b' (by simp; omega)
        have hC := ih a' b' (by omega)
        have e0 := levR_cons_cons x' y' (a' ++ [x]) (b' ++ [y])
        have e1 := levR_cons_cons x' y' a' (b' ++ [y])
        have e2 := levR_cons_cons x' y' (a' ++ [x]) b'
        have e3 := levR_cons_cons x' y' a' b'
        simp only [List.cons_append] at hA hB hC ⊢
        rw [e0, hA, hB, hC, e1, e2, e3]
        generalize levR a' (y' :: (b' ++ [y])) = q1
        generalize levR (a' ++ [x]) (y' :: b') = q2
        generalize levR a' (y' :: b') = q3
        generalize levR (x' :: a') (b' ++ [y]) = q4
        generalize levR (x' :: (a' ++ [x])) b' = q5
        generalize levR (x' :: a') b' = q6
        generalize levR a' (b' ++ [y]) = q7
        generalize levR (a' ++ [x]) b' = q8
        generalize levR a' b' = q9
        generalize levCost x y = c1
        generalize levCost x' y' = c2
        have dist : ∀ a b c : ℕ, min a b + c = min (a + c) (b + c) := by
          intro a b c
          omega
        simp only [dist]
        apply le_antisymm <;> simp only [le_min_iff, min_le_iff] <;> omega


end MorseFocus

namespace MorseFocus

/-! ### The matrix of lev_diff computes the reference distance -/

theorem fillCells_spec (x : Char) (a : List Char) :
    ∀ (ys zs : List Char),
      fillCells x ys (rowVals a zs ys) (levR a zs) (levR (a ++ [x]) zs)
        = rowVals (a ++ [x]) zs ys := by
  intro ys
  induction ys with
  | nil => intro zs; simp [fillCells, rowVals]
  | cons y ys ih =>
    intro zs
    rw [rowVals, rowVals, fillCells]
    have hcell : min (levR a (zs ++ [y]) + 1)
        (min (levR (a ++ [x]) zs + 1) (levR a zs + levCost x y))
        = levR (a ++ [x]) (zs ++ [y]) := (levR_snoc x y a zs).symm
    rw [hcell]
    exact congrArg _ (ih (zs ++ [y]))

theorem rowVals_nil (ys : List Char) :
    ∀ zs : List Char, rowVals [] zs ys = List.range' (zs.length + 1) ys.length := by
  induction ys with
  | nil => intro zs; simp [rowVals]
  | cons y ys ih =>
    intro zs
    simp only [List.length_cons]
    rw [rowVals, List.range'_succ, levR_nil_left]
    simp [ih (zs ++ [y])]

theorem fullRow_nil (s2 : List Char) : fullRow [] s2 = List.range (s2.length + 1) := by
  rw [fullRow, rowVals_nil, List.range_eq_range', List.range'_succ]
  simp

theorem levRows_getD (s2 : List Char) :
    ∀ (xs a : List Char) (r : ℕ), r ≤ xs.length →
      (levRows s2 xs (a.length + 1) (fullRow a s2)).getD r []
        = fullRow (a ++ xs.take r) s2 := by
  intro xs
  induction xs with
  | nil =>
    intro a r hr
    simp at hr
    subst hr
    simp [levRows]
  | cons x xs ih =>
    intro a r hr
    have hprev : (a.length + 1) :: fillCells x s2 ((fullRow a s2).drop 1)
        ((fullRow a s2).headD 0) (a.length + 1) = fullRow (a ++ [x]) s2 := by
      have h1 : (fullRow a s2).drop 1 = rowVals a [] s2 := rfl
      have h2 : (fullRow a s2).headD 0 = a.length := rfl
      have hfc := fillCells_spec x a s2 []
      rw [levR_nil_right, levR_nil_right] at hfc
      simp only [List.length_append, List.length_cons, List.length_nil] at hfc
      rw [h1, h2, hfc, fullRow]
      simp
    rw [levRows]
    cases r with
    | zero => simp
    | succ r =>
      simp only [List.getD_cons_succ]
      rw [hprev]
      have := ih (a ++ [x]) r (by simpa using hr)
      rw [List.length_append, List.length_cons, List.length_nil] at this
      rw [this]
      simp [List.append_assoc]

theorem dpv_eq_levR (s1 s2 : List Char) (i j : ℕ)
    (hi : i ≤ s1.length) (hj : j ≤ s2.length) :
    dpv s1 s2 i j = levR (s1.take i) (s2.take j) := by
  have hm : (levMatrix s1 s2).getD i [] = fullRow (s1.take i) s2 := by
    have h0 := levRows_getD s2 s1 [] i (by simpa using hi)
    simp only [List.length_nil, List.nil_append, Nat.zero_add] at h0
    rw [fullRow_nil] at h0
    rw [levMatrix]
    exact h0
  rw [dpv, hm]
  cases j with
  | zero => simp [fullRow, levR_nil_right]
  | succ j =>
    simp only [fullRow, List.getD_cons_succ]
    clear hm
    have : ∀ (ys : List Char) (zs : List Char) (k : ℕ), k < ys.length →
        (rowVals (s1.take i) zs ys).getD k 0 = levR (s1.take i) (zs ++ ys.take (k + 1)) := by
      intro ys
      induction ys with
      | nil => intro zs k hk; simp at hk
      | cons y ys ih =>
        intro zs k hk
        cases k with
        | zero => simp [rowVals]
        | succ k =>
          rw [rowVals, List.getD_cons_succ]
          have := ih (zs ++ [y]) k (by simpa using hk)
          rw [this]
          simp [List.append_assoc]
    have hred := this s2 [] j (by omega)
    simpa using hred

theorem dpv_levR (s1 s2 : List Char) :
    dpv s1 s2 s1.length s2.length = levR s1 s2 := by
  rw [dpv_eq_levR s1 s2 _ _ le_rfl le_rfl, List.take_length, List.take_length]


end MorseFocus

namespace MorseFocus

theorem backtrack_self (a : List Char) :
    ∀ (f i : ℕ), i ≤ a.length → backtrack a a f i i = [] := by
  intro f
  induction f with
  | zero => intro i hi; rfl
  | succ f ih =>
    intro i hi
    cases i with
    | zero => rfl
    | succ k =>
      have hd1 : dpv a a (k + 1) (k + 1) = 0 := by
        rw [dpv_eq_levR a a _ _ hi hi, levR_self]
      have hd0 : dpv a a k k = 0 := by
        rw [dpv_eq_levR a a k k (by omega) (by omega), levR_self]
      have hcost : levCost (a.getD k ' ') (a.getD k ' ') = 0 := by
        simp [levCost]
      simp only [backtrack, Nat.add_sub_cancel]
      rw [if_pos]
      · rw [if_neg (by simp)]
        simpa using ih k (by omega)
      · exact ⟨by omega, by omega, by rw [hd1, hd0, hcost]⟩

theorem lev_symm (xs ys : List Char) : lev xs ys = lev ys xs := by
  rw [← levR_eq_lev, ← levR_eq_lev, levR_symm]

theorem lev_diff_some (s1 s2 : List Char) (h1 : s1 ≠ []) (h2 : s2 ≠ []) :
    lev_diff s1 s2 = some (lev s1 s2,
      backtrack s1 s2 (s1.length + s2.length) s1.length s2.length) := by
  rw [lev_diff, if_neg, dpv_levR, levR_eq_lev]
  simp [h1, h2]

/-- Claim C1: for non-empty strings, `lev_diff` returns exactly the standard
Levenshtein edit distance (Mathlib's `levenshtein` with unit costs); the
distance of any string against itself is 0 with no weight-array write at all
(so a zero weight vector stays zero); and the distance value is symmetric in
its two arguments. -/
theorem C1_lev_diff_standard_distance :
    (∀ s1 s2 : List Char, s1 ≠ [] → s2 ≠ [] →
        (lev_diff s1 s2).map Prod.fst = some (lev s1 s2))
    ∧ (∀ a : List Char, a ≠ [] → lev_diff a a = some (0, []))
    ∧ (∀ s1 s2 : List Char, s1 ≠ [] → s2 ≠ [] →
        (lev_diff s1 s2).map Prod.fst = (lev_diff s2 s1).map Prod.fst) := by
  refine ⟨?_, ?_, ?_⟩
  · intro s1 s2 h1 h2
    rw [lev_diff_some s1 s2 h1 h2, Option.map_some']
  · intro a ha
    rw [lev_diff_some a a ha ha, backtrack_self a _ _ le_rfl, ← levR_eq_lev, levR_self]
  · intro s1 s2 h1 h2
    rw [lev_diff_some s1 s2 h1 h2, lev_diff_some s2 s1 h2 h1,
      Option.map_some', Option.map_some', lev_symm]

end MorseFocus

namespace MorseFocus

/-- Witness for C1 at concrete inputs. -/
theorem C1_lev_diff_standard_distance_witness :
    (lev_diff "ab".data "b".data).map Prod.fst = some (lev "ab".data "b".data)
    ∧ lev_diff "ab".data "ab".data = some (0, [])
    ∧ (lev_diff "ab".data "b".data).map Prod.fst = (lev_diff "b".data "ab".data).map Prod.fst :=
  ⟨C1_lev_diff_standard_distance.1 "ab".data "b".data (by decide) (by decide),
   C1_lev_diff_standard_distance.2.1 "ab".data (by decide),
   C1_lev_diff_standard_distance.2.2 "ab".data "b".data (by decide) (by decide)⟩

set_option maxRecDepth 10000 in
/-- Claim C2: on `"abc test hey"` vs `"abd tests hey"` the backtrack (with its
diagonal-first, then deletion, then insertion tie-break, substitutions
charging both characters, deletions the string-1 character and insertions the
string-2 character) returns distance 2 and writes exactly one increment each
to the weight entries of `c`, `d` and `s`, and nothing else. -/
theorem C2_backtrack_attribution :
    lev_diff "abc test hey".data "abd tests hey".data = some (2, [28, 12, 13])
    ∧ ([28, 12, 13] : List ℤ).Perm
        [str_char_to_int 'c', str_char_to_int 'd', str_char_to_int 's'] := by
  decide

set_option maxRecDepth 10000 in
/-- Claim C3 (code bug): an unsupported character ('A') participating in an
attributed edit does NOT abort `lev_diff`; the call succeeds with distance 1
and the backtrack performs the write `weights[str_char_to_int('A')]++`, i.e.
`weights[-1]++`, an out-of-bounds write. -/
theorem C3_oob_weight_write :
    lev_diff ['A'] ['b'] = some (1, [-1, 11])
    ∧ str_char_to_int 'A' = -1 ∧ ¬ (0 : ℤ) ≤ -1 := by
  decide

end MorseFocus


namespace MorseFocus

/-! ### MorseCodec lemmas -/

theorem splitSp_ne_nil (l : List Char) : splitSp l ≠ [] := by
  cases l with
  | nil => simp [splitSp]
  | cons c rest =>
    rw [splitSp]
    split
    · simp
    · cases h : splitSp rest <;> simp

theorem lookup_val_ne_nil :
    ∀ (l : List (Char × List Char)), (∀ p ∈ l, p.2 ≠ []) →
      ∀ (a : Char) (mc : List Char), l.lookup a = some mc → mc ≠ [] := by
  intro l
  induction l with
  | nil => intro _ a mc h; simp [List.lookup] at h
  | cons p es ih =>
    intro hall a mc h
    obtain ⟨k, v⟩ := p
    cases hb : (a == k) with
    | true =>
      simp only [List.lookup, hb] at h
      obtain rfl : v = mc := by injection h
      exact hall (k, v) (by simp)
    | false =>
      simp only [List.lookup, hb] at h
      exact ih (fun p hp => hall p (by simp [hp])) a mc h

theorem morse_lookup_ne_nil (c : Char) (mc : List Char)
    (h : morse_lookup c = some mc) : mc ≠ [] := by
  refine lookup_val_ne_nil morse_table ?_ (upperAscii c) mc h
  decide

theorem expandAux_spec (input : List Char) :
    expandAux input true = joinMorse ((splitSp input).map wordExpand)
    ∧ expandAux input false = joinMorseCont ((splitSp input).map wordExpand) := by
  induction input with
  | nil => simp [expandAux, splitSp, joinMorse, joinMorseCont, wordExpand]
  | cons c rest ih =>
    obtain ⟨iht, ihf⟩ := ih
    obtain ⟨w0, ws, hsplit⟩ : ∃ w0 ws, splitSp rest = w0 :: ws := by
      cases h : splitSp rest with
      | nil => exact absurd h (splitSp_ne_nil rest)
      | cons w0 ws => exact ⟨w0, ws, rfl⟩
    rw [hsplit, List.map_cons] at iht ihf
    by_cases hsp : c = ' '
    · subst hsp
      have hsplit2 : splitSp (' ' :: rest) = [] :: w0 :: ws := by
        rw [splitSp]; simp [hsplit]
      have h1 : expandAux (' ' :: rest) true = expandAux rest true := by
        rw [expandAux]; simp
      have h2 : expandAux (' ' :: rest) false = '/' :: expandAux rest true := by
        rw [expandAux]; simp
      rw [hsplit2, List.map_cons, List.map_cons]
      rw [show wordExpand [] = [] from rfl]
      constructor
      · rw [h1, iht, joinMorse]
        simp
      · rw [h2, iht, joinMorseCont]
        simp
    · have hsplit2 : splitSp (c :: rest) = (c :: w0) :: ws := by
        rw [splitSp, if_neg hsp, hsplit]
      rw [hsplit2, List.map_cons]
      cases hlk : morse_lookup c with
      | none =>
        have hwe : wordExpand (c :: w0) = wordExpand w0 := by
          rw [wordExpand, hlk]
        have het : expandAux (c :: rest) true = expandAux rest true := by
          rw [expandAux, if_neg hsp, hlk]
        have hef : expandAux (c :: rest) false = expandAux rest false := by
          rw [expandAux, if_neg hsp, hlk]
        rw [het, hef, hwe, iht, ihf]
        exact ⟨rfl, rfl⟩
      | some mc =>
        have hmc : mc ≠ [] := morse_lookup_ne_nil c mc hlk
        have hwe : wordExpand (c :: w0)
            = mc ++ (if wordExpand w0 = [] then [] else '|' :: wordExpand w0) := by
          rw [wordExpand, hlk]
        have het : expandAux (c :: rest) true = mc ++ expandAux rest false := by
          rw [expandAux, if_neg hsp, hlk]; simp
        have hef : expandAux (c :: rest) false = '|' :: (mc ++ expandAux rest false) := by
          rw [expandAux, if_neg hsp, hlk]; simp
        rw [het, hef, ihf, hwe]
        cases ws with
        | nil =>
          simp only [List.map_nil, joinMorse, joinMorseCont]
          by_cases hww : wordExpand w0 = [] <;>
            simp [hww, hmc, List.append_assoc]
        | cons e2 es =>
          simp only [List.map_cons, joinMorse, joinMorseCont]
          by_cases hww : wordExpand w0 = [] <;>
            simp [hww, hmc, List.append_assoc]


end MorseFocus

namespace MorseFocus

theorem gapAfter_head (rest : List Char) :
    gapAfter rest = (if rest.head? = some '.' ∨ rest.head? = some '-' then 1 else 0) := by
  cases rest <;> simp [gapAfter]

theorem count_units_spec (s : List Char)
    (hs : ∀ x ∈ s, x = '.' ∨ x = '-' ∨ x = '|' ∨ x = '/') :
    count_units s = some (unitsSpec s) := by
  induction s with
  | nil => simp [count_units, unitsSpec]
  | cons c rest ih =>
    have ihr := ih (fun x hx => hs x (List.mem_cons_of_mem c hx))
    have hc := hs c (List.mem_cons_self c rest)
    rcases hc with hc | hc | hc | hc <;> subst hc <;>
      simp only [count_units, ihr, Option.map_some', unitsSpec, symCharge, gapAfter_head] <;>
      simp


end MorseFocus

namespace MorseFocus

/-- Claim C7, counterexample to the claim as stated: the input "a ", which
ends in a space after a non-empty word, expands to dot, dash, slash — the
output ends with the inter-word gap marker, so `ascii_to_morse_expanded`
does produce a trailing gap marker. -/
theorem C7_trailing_marker_counterexample :
    ascii_to_morse_expanded "a ".data = ['.', '-', '/']
    ∧ (ascii_to_morse_expanded "a ".data).getLast? = some '/' := by
  decide

/-- Claim C7 (amended): `ascii_to_morse_expanded` maps each supported
character case-insensitively to its pattern by table lookup, silently skips
unsupported characters, places the inter-character marker between
consecutive patterns of a word and the inter-word marker at every space
preceded by a non-empty expanded word — hence no leading marker and no
doubled markers, but a non-empty word followed by a final space (or by
spaces and unsupported characters) yields one trailing inter-word marker;
the four concrete examples of the claim hold as stated. -/
theorem C7_expand_amended :
    (∀ input : List Char,
        ascii_to_morse_expanded input = joinMorse ((splitSp input).map wordExpand))
    ∧ ascii_to_morse_expanded "SOS".data = "...|---|...".data
    ∧ ascii_to_morse_expanded "PARIS".data = ".--.|.-|.-.|..|...".data
    ∧ ascii_to_morse_expanded "".data = "".data
    ∧ ascii_to_morse_expanded "HELLO WORLD".data
        = "....|.|.-..|.-..|---/.--|---|.-.|.-..|-..".data := by
  exact ⟨fun input => (expandAux_spec input).1, by decide, by decide, by decide, by decide⟩

/-- Claim C8: on streams over the known symbols, `count_units` returns the
total of the per-symbol charges of the timing convention, and in particular
27 units for expand("SOS") and 43 for expand("PARIS"). -/
theorem C8_count_units :
    (∀ s : List Char, (∀ x ∈ s, x = '.' ∨ x = '-' ∨ x = '|' ∨ x = '/') →
        count_units s = some (unitsSpec s))
    ∧ count_units (ascii_to_morse_expanded "SOS".data) = some 27
    ∧ count_units (ascii_to_morse_expanded "PARIS".data) = some 43 := by
  exact ⟨count_units_spec, by decide, by decide⟩

/-- Witness for C8 at a concrete stream. -/
theorem C8_count_units_witness :
    count_units "...|---|...".data = some (unitsSpec "...|---|...".data) :=
  C8_count_units.1 "...|---|...".data (by decide)

/-- Claim C9 (code bug): `cw_duration` (and `cw_play` of src/source/cw.c)
reject a character speed below the Farnsworth speed, but `cw_play` of
src/modules/cw.c does not: its validation accepts character speed 5 WPM
with Farnsworth speed 10 WPM and proceeds to initialise the audio device
and request frames. -/
theorem C9_cw_play_missing_check :
    cw_duration "e".data 5 10 = none
    ∧ cw_play_src_proceeds 5 10 700 1 = false
    ∧ cw_play_proceeds 5 10 700 1 = true := by
  refine ⟨?_, ?_, ?_⟩
  · rw [cw_duration, if_pos]
    norm_num
  · rw [cw_play_src_proceeds, if_neg, if_pos]
    · norm_num
    · norm_num
  · rw [cw_play_proceeds, if_neg]
    norm_num

end MorseFocus

namespace MorseFocus

/-! ### TextGenerator lemmas -/

theorem emitWord_spec (rand : ℕ → ℚ) (draw : ℚ → Char) (num_char : ℕ) :
    ∀ (n t : ℕ) (out : List Char), ∃ delta : List Char,
      emitWord rand draw num_char n t out = (out ++ delta, t + delta.length)
      ∧ delta.length = min n (num_char - 2 - out.length)
      ∧ (∀ c ∈ delta, ∃ q, c = draw (rand q)) := by
  intro n
  induction n with
  | zero =>
    intro t out
    exact ⟨[], by simp [emitWord]⟩
  | succ n ih =>
    intro t out
    by_cases h : out.length < num_char - 2
    · obtain ⟨delta, h1, h2, h3⟩ := ih (t + 1) (out ++ [draw (rand t)])
      refine ⟨draw (rand t) :: delta, ?_, ?_, ?_⟩
      · rw [emitWord, if_pos h, h1]
        simp
        omega
      · simp at h2 ⊢
        omega
      · intro c hc
        rcases List.mem_cons.mp hc with hc | hc
        · exact ⟨t, by simp [hc]⟩
        · exact h3 c hc
    · refine ⟨[], ?_, ?_, by simp⟩
      · rw [emitWord, if_neg h]
        simp
      · simp
        omega

theorem genLoop_length (rand : ℕ → ℚ) (draw : ℚ → Char) (num_char mw Mw : ℕ) :
    ∀ (f t : ℕ) (out res : List Char), out.length ≤ num_char - 2 →
      genLoop rand draw num_char mw Mw f t out = some res →
      res.length ≤ num_char - 2 := by
  intro f
  induction f with
  | zero => intro t out res h hres; simp [genLoop] at hres
  | succ f ih =>
    intro t out res h hres
    rw [genLoop] at hres
    by_cases hlt : out.length < num_char - 1
    · rw [if_pos hlt] at hres
      obtain ⟨delta, h1, h2, h3⟩ := emitWord_spec rand draw num_char
        (wordLen (rand t) mw Mw (num_char - 1 - out.length)) (t + 1) out
      rw [h1] at hres
      simp only at hres
      by_cases hp : (out ++ delta).length < num_char - 2
      · rw [if_pos hp] at hres
        exact ih _ _ _ (by simp at hp ⊢; omega) hres
      · rw [if_neg hp] at hres
        injection hres with hres
        subst hres
        simp only [List.length_append] at h2 ⊢
        omega
    · rw [if_neg hlt] at hres
      injection hres with hres
      subst hres
      exact h


end MorseFocus

namespace MorseFocus

theorem wordLen_eq_min (r : ℚ) (mw Mw b : ℕ) :
    wordLen r mw Mw b = min (mw + ⌊r * ((Mw : ℚ) - (mw : ℚ) + 1)⌋₊) b := by
  rw [wordLen]
  split <;> omega

theorem wlen0_bounds (r : ℚ) (mw Mw : ℕ) (h0 : 0 ≤ r) (h1 : r < 1) (hm : mw ≤ Mw) :
    mw ≤ mw + ⌊r * ((Mw : ℚ) - (mw : ℚ) + 1)⌋₊
    ∧ mw + ⌊r * ((Mw : ℚ) - (mw : ℚ) + 1)⌋₊ ≤ Mw := by
  refine ⟨by omega, ?_⟩
  have hk : ((Mw : ℚ) - (mw : ℚ) + 1) = ((Mw - mw + 1 : ℕ) : ℚ) := by
    push_cast [Nat.cast_sub hm]
    ring
  have hkpos : (0 : ℚ) < ((Mw - mw + 1 : ℕ) : ℚ) :=
    Nat.cast_pos.mpr (by omega)
  have hfl : ⌊r * ((Mw : ℚ) - (mw : ℚ) + 1)⌋₊ < Mw - mw + 1 := by
    rw [hk]
    rw [Nat.floor_lt (by positivity)]
    calc r * ((Mw - mw + 1 : ℕ) : ℚ) < 1 * ((Mw - mw + 1 : ℕ) : ℚ) :=
          mul_lt_mul_of_pos_right h1 hkpos
      _ = ((Mw - mw + 1 : ℕ) : ℚ) := one_mul _
  omega

theorem genLoop_words (rand : ℕ → ℚ) (hr : ∀ n, 0 ≤ rand n ∧ rand n < 1)
    (draw : ℚ → Char) (charset : List Char)
    (hdraw : ∀ q, 0 ≤ q → q < 1 → draw q ∈ charset)
    (num_char mw Mw : ℕ) (hmw : 1 ≤ mw) (hM : mw ≤ Mw) :
    ∀ (f t : ℕ) (out res : List Char), out.length ≤ num_char - 2 →
      genLoop rand draw num_char mw Mw f t out = some res →
      ∃ (ws : List (List Char)) (trail : Bool),
        res = out ++ joinWords ws trail
        ∧ (∀ wd ∈ ws, wd ≠ [] ∧ wd.length ≤ Mw ∧ ∀ c ∈ wd, c ∈ charset)
        ∧ (∀ wd ∈ ws.dropLast, mw ≤ wd.length)
        ∧ (trail = true → ws ≠ [] ∧ ∀ wd ∈ ws, mw ≤ wd.length) := by
  intro f
  induction f with
  | zero => intro t out res h hres; simp [genLoop] at hres
  | succ f ih =>
    intro t out res h hres
    rw [genLoop] at hres
    by_cases hlt : out.length < num_char - 1
    case neg =>
      rw [if_neg hlt] at hres
      injection hres with hres
      subst hres
      exact ⟨[], false, by simp [joinWords], by simp, by simp, by simp⟩
    case pos =>
      rw [if_pos hlt] at hres
      obtain ⟨delta, h1, h2, h3⟩ := emitWord_spec rand draw num_char
        (wordLen (rand t) mw Mw (num_char - 1 - out.length)) (t + 1) out
      rw [h1] at hres
      simp only at hres
      have hmem : ∀ c ∈ delta, c ∈ charset := by
        intro c hc
        obtain ⟨q, hq⟩ := h3 c hc
        rw [hq]
        exact hdraw (rand q) (hr q).1 (hr q).2
      rw [wordLen_eq_min] at h2
      obtain ⟨hW1, hW2⟩ := wlen0_bounds (rand t) mw Mw (hr t).1 (hr t).2 hM
      by_cases hout : out.length < num_char - 2
      case neg =>
        have hdelta0 : delta.length = 0 := by omega
        have hdelta : delta = [] := List.length_eq_zero.mp hdelta0
        rw [hdelta, List.append_nil, if_neg hout] at hres
        injection hres with hres
        subst hres
        exact ⟨[], false, by simp [joinWords], by simp, by simp, by simp⟩
      case pos =>
        have hdpos : 1 ≤ delta.length := by omega
        have hdne : delta ≠ [] := by
          intro hcon
          rw [hcon] at hdpos
          simp at hdpos
        have hdleM : delta.length ≤ Mw := by omega
        by_cases hp : (out ++ delta).length < num_char - 2
        case pos =>
          rw [if_pos hp] at hres
          simp only [List.length_append] at hp
          have hdmw : mw ≤ delta.length := by omega
          have hlen2 : (out ++ delta ++ [' ']).length ≤ num_char - 2 := by
            simp
            omega
          obtain ⟨ws2, trail2, hres2, hprops2, hdrop2, htrail2⟩ := ih _ _ _ hlen2 hres
          cases ws2 with
          | nil =>
            have ht2 : trail2 = false := by
              cases trail2 with
              | false => rfl
              | true => exact absurd (htrail2 rfl).1 (by simp)
            refine ⟨[delta], true, ?_, ?_, by simp, ?_⟩
            · rw [hres2, ht2]
              simp [joinWords]
            · intro wd hwd
              rw [List.mem_singleton] at hwd
              subst hwd
              exact ⟨hdne, hdleM, hmem⟩
            · intro _
              refine ⟨by simp, ?_⟩
              intro wd hwd
              rw [List.mem_singleton] at hwd
              subst hwd
              exact hdmw
          | cons w2 ws3 =>
            refine ⟨delta :: w2 :: ws3, trail2, ?_, ?_, ?_, ?_⟩
            · rw [hres2]
              simp [joinWords, List.append_assoc]
            · intro wd hwd
              rcases List.mem_cons.mp hwd with hwd | hwd
              · subst hwd
                exact ⟨hdne, hdleM, hmem⟩
              · exact hprops2 wd hwd
            · intro wd hwd
              rw [show (delta :: w2 :: ws3).dropLast = delta :: (w2 :: ws3).dropLast from rfl]
                at hwd
              rcases List.mem_cons.mp hwd with hwd | hwd
              · subst hwd
                exact hdmw
              · exact hdrop2 wd hwd
            · intro ht
              obtain ⟨-, hall⟩ := htrail2 ht
              refine ⟨by simp, ?_⟩
              intro wd hwd
              rcases List.mem_cons.mp hwd with hwd | hwd
              · subst hwd
                exact hdmw
              · exact hall wd hwd
        case neg =>
          rw [if_neg hp] at hres
          injection hres with hres
          subst hres
          refine ⟨[delta], false, by simp [joinWords], ?_, by simp, by simp⟩
          intro wd hwd
          rw [List.mem_singleton] at hwd
          subst hwd
          exact ⟨hdne, hdleM, hmem⟩


end MorseFocus

namespace MorseFocus

theorem lowerBound_le (cdf : List ℚ) (r : ℚ) :
    ∀ (f lo hi : ℕ), lo ≤ hi → lowerBound cdf r f lo hi ≤ hi := by
  intro f
  induction f with
  | zero => intro lo hi h; simpa [lowerBound] using h
  | succ f ih =>
    intro lo hi h
    rw [lowerBound]
    by_cases hlt : lo < hi
    · rw [if_pos hlt]
      split
      · exact ih _ _ (by omega)
      · exact le_trans (ih _ _ (by omega)) (by omega)
    · rw [if_neg hlt]
      exact h

theorem drawChar_mem (charset : List Char) (cdf : Option (List ℚ)) (q : ℚ)
    (hne : charset ≠ []) (h0 : 0 ≤ q) (h1 : q < 1) :
    drawChar charset cdf q ∈ charset := by
  have hlen : 0 < charset.length := List.length_pos.mpr hne
  cases cdf with
  | none =>
    have hidx : ⌊q * (charset.length : ℚ)⌋₊ < charset.length := by
      rw [Nat.floor_lt (by positivity)]
      calc q * (charset.length : ℚ) < 1 * (charset.length : ℚ) :=
            mul_lt_mul_of_pos_right h1 (by exact_mod_cast hlen)
        _ = (charset.length : ℚ) := one_mul _
    rw [drawChar, List.getD_eq_getElem _ _ hidx]
    exact List.getElem_mem hidx
  | some cdf =>
    have hidx : lowerBound cdf q charset.length 0 (charset.length - 1) < charset.length := by
      have := lowerBound_le cdf q charset.length 0 (charset.length - 1) (by omega)
      omega
    rw [drawChar, List.getD_eq_getElem _ _ hidx]
    exact List.getElem_mem hidx

end MorseFocus

namespace MorseFocus

set_option maxHeartbeats 800000 in
/-- Length bound of every successful `gen_chars` call (shared helper). -/
theorem gen_chars_length_lt (rand : ℕ → ℚ) (num_char : ℕ) (min_word max_word : ℤ)
    (wt : Option (ℕ → ℚ)) (cs0 : Option (List Char)) (out : List Char)
    (h : gen_chars rand num_char min_word max_word wt cs0 = some out) :
    out.length ≤ num_char - 2 ∧ out.length < num_char - 1 := by
  rw [gen_chars.eq_def] at h
  split_ifs at h with h1 h2 h3 h4 h5 h6 h7
  cases wt with
  | none =>
    dsimp only at h
    have := genLoop_length rand _ num_char min_word.toNat max_word.toNat
      num_char 0 [] out (by simp) h
    omega
  | some w =>
    dsimp only at h
    cases hlw : lookupWeights w (cs0.getD default_charset) with
    | none => rw [hlw] at h; simp at h
    | some tmp =>
      rw [hlw] at h
      dsimp only at h
      split_ifs at h with h8
      have := genLoop_length rand _ num_char min_word.toNat max_word.toNat
        num_char 0 [] out (by simp) h
      omega

/-- Claim C10: a successful `gen_chars` call with capacity `num_char` in
fact produces at most `num_char - 2` characters: the advertised maximum
length `num_char - 1` is never attained, so together with the terminating
NUL (at index `length ≤ num_char - 2`) the byte at index `num_char - 1` of
the output buffer is never written. -/
theorem C10_length_bound (rand : ℕ → ℚ) (num_char : ℕ) (min_word max_word : ℤ)
    (wt : Option (ℕ → ℚ)) (cs0 : Option (List Char)) (out : List Char)
    (h : gen_chars rand num_char min_word max_word wt cs0 = some out) :
    out.length ≤ num_char - 2 ∧ out.length < num_char - 1 :=
  gen_chars_length_lt rand num_char min_word max_word wt cs0 out h

/-- Witness for C10 at a concrete successful call. -/
theorem C10_length_bound_witness :
    gen_chars (fun _ => 0) 4 1 1 none (some "ab".data) = some ['a', ' ']
    ∧ (['a', ' '] : List Char).length ≤ 4 - 2
    ∧ (['a', ' '] : List Char).length < 4 - 1 := by
  have heval : gen_chars (fun _ => 0) 4 1 1 none (some "ab".data) = some ['a', ' '] := by
    have hclean : str_is_clean "ab".data = true := by decide
    rw [gen_chars.eq_def]
    norm_num [GEN_MAX, hclean]
    rw [genLoop]
    norm_num [wordLen, emitWord, drawChar, genLoop]
  exact ⟨heval, C10_length_bound (fun _ => 0) 4 1 1 none (some "ab".data) ['a', ' '] heval⟩

/-- Claim C4, counterexample to the claim as stated: with capacity
`num_char = 4`, word bounds 1..1 and charset "ab", `gen_chars` (here with
the constant-zero random stream) succeeds and returns the two characters
"a" and space — an output with a trailing space. -/
theorem C4_trailing_space_counterexample :
    gen_chars (fun _ => 0) 4 1 1 none (some "ab".data) = some ['a', ' ']
    ∧ (['a', ' '] : List Char).getLast? = some ' ' := by
  refine ⟨?_, by decide⟩
  have hclean : str_is_clean "ab".data = true := by decide
  rw [gen_chars.eq_def]
  norm_num [GEN_MAX, hclean]
  rw [genLoop]
  norm_num [wordLen, emitWord, drawChar, genLoop]

set_option maxHeartbeats 800000 in
/-- Claim C4 (amended): a successful `gen_chars` call returns a string of
length at most `num_char - 1` that is a sequence of non-empty words over
the supplied charset separated by single spaces — no leading space and no
two consecutive spaces — but possibly with one trailing space (exactly
when the length budget ran out immediately after a word separator); every
word except possibly the last has length in `[min_word, max_word]`, the
final word never exceeds `max_word` but may be truncated below `min_word`
by the budget, and when a trailing space is present all words are within
bounds. -/
theorem C4_gen_chars_words (rand : ℕ → ℚ) (hr : ∀ n, 0 ≤ rand n ∧ rand n < 1)
    (num_char : ℕ) (min_word max_word : ℤ) (wt : Option (ℕ → ℚ))
    (cs0 : Option (List Char)) (out : List Char)
    (h : gen_chars rand num_char min_word max_word wt cs0 = some out) :
    ∃ (ws : List (List Char)) (trail : Bool),
      out = joinWords ws trail
      ∧ out.length ≤ num_char - 1
      ∧ (∀ wd ∈ ws, wd ≠ [] ∧ wd.length ≤ max_word.toNat
          ∧ ∀ c ∈ wd, c ∈ cs0.getD default_charset)
      ∧ (∀ wd ∈ ws.dropLast, min_word.toNat ≤ wd.length)
      ∧ (trail = true → ws ≠ [] ∧ ∀ wd ∈ ws, min_word.toNat ≤ wd.length) := by
  have hlen := gen_chars_length_lt rand num_char min_word max_word wt cs0 out h
  rw [gen_chars.eq_def] at h
  split_ifs at h with h1 h2 h3 h4 h5 h6 h7
  push_neg at h1
  have hmw : 1 ≤ min_word.toNat := by omega
  have hM : min_word.toNat ≤ max_word.toNat := by omega
  have hne : cs0.getD default_charset ≠ [] := by
    intro hcon
    exact h7 (by rw [hcon]; rfl)
  cases wt with
  | none =>
    dsimp only at h
    obtain ⟨ws, trail, hout, hprops, hdrop, htrail⟩ :=
      genLoop_words rand hr _ (cs0.getD default_charset)
        (fun q h0 h1 => drawChar_mem _ none q hne h0 h1)
        num_char min_word.toNat max_word.toNat hmw hM num_char 0 [] out (by simp) h
    exact ⟨ws, trail, by simpa using hout, le_of_lt hlen.2, hprops, hdrop, htrail⟩
  | some w =>
    dsimp only at h
    cases hlw : lookupWeights w (cs0.getD default_charset) with
    | none => rw [hlw] at h; simp at h
    | some tmp =>
      rw [hlw] at h
      dsimp only at h
      split_ifs at h with h8
      obtain ⟨ws, trail, hout, hprops, hdrop, htrail⟩ :=
        genLoop_words rand hr _ (cs0.getD default_charset)
          (fun q h0 h1 => drawChar_mem _ (some (cdfOf tmp tmp.sum)) q hne h0 h1)
          num_char min_word.toNat max_word.toNat hmw hM num_char 0 [] out (by simp) h
      exact ⟨ws, trail, by simpa using hout, le_of_lt hlen.2, hprops, hdrop, htrail⟩

/-- Witness for C4 at a concrete successful call. -/
theorem C4_gen_chars_words_witness :
    gen_chars (fun _ => 0) 4 1 1 none (some "ab".data) = some ['a', ' ']
    ∧ ∃ (ws : List (List Char)) (trail : Bool),
        (['a', ' '] : List Char) = joinWords ws trail
        ∧ (['a', ' '] : List Char).length ≤ 4 - 1
        ∧ (∀ wd ∈ ws, wd ≠ [] ∧ wd.length ≤ (1 : ℤ).toNat
            ∧ ∀ c ∈ wd, c ∈ (some "ab".data).getD default_charset)
        ∧ (∀ wd ∈ ws.dropLast, (1 : ℤ).toNat ≤ wd.length)
        ∧ (trail = true → ws ≠ [] ∧ ∀ wd ∈ ws, (1 : ℤ).toNat ≤ wd.length) := by
  have heval : gen_chars (fun _ => 0) 4 1 1 none (some "ab".data) = some ['a', ' '] := by
    have hclean : str_is_clean "ab".data = true := by decide
    rw [gen_chars.eq_def]
    norm_num [GEN_MAX, hclean]
    rw [genLoop]
    norm_num [wordLen, emitWord, drawChar, genLoop]
  exact ⟨heval,
    C4_gen_chars_words (fun _ => 0) (fun n => ⟨le_refl 0, by norm_num⟩)
      4 1 1 none (some "ab".data) ['a', ' '] heval⟩

end MorseFocus

namespace MorseFocus

theorem str_is_clean_true_iff (s : List Char) :
    str_is_clean s = true ↔ ∀ c ∈ s.take MAX_CHARSET_LEN, 0 ≤ str_char_to_int c := by
  simp [str_is_clean, List.all_eq_true]

set_option maxHeartbeats 800000 in
/-- Claim C6 (amended): `gen_chars` fails with an explicit error and no
partial output whenever the word-length range is invalid, the capacity is
below 2 or any size exceeds `GEN_MAX`, the charset contains an unsupported
character among its first `MAX_CHARSET_LEN` (50) characters, the charset is
empty, or — in the weighted path, where the whole charset is re-validated —
the charset contains an unsupported character anywhere or the charset
weights sum to exactly zero.  (An unsupported character strictly beyond
position 49 is NOT rejected on the unweighted path; see the
counterexample.) -/
theorem C6_gen_chars_validation (rand : ℕ → ℚ) (num_char : ℕ)
    (min_word max_word : ℤ) (wt : Option (ℕ → ℚ)) (cs0 : Option (List Char)) :
    (min_word < 1 → gen_chars rand num_char min_word max_word wt cs0 = none)
    ∧ (max_word < min_word → gen_chars rand num_char min_word max_word wt cs0 = none)
    ∧ (num_char < 2 → gen_chars rand num_char min_word max_word wt cs0 = none)
    ∧ (GEN_MAX < num_char → gen_chars rand num_char min_word max_word wt cs0 = none)
    ∧ ((GEN_MAX : ℤ) < min_word → gen_chars rand num_char min_word max_word wt cs0 = none)
    ∧ ((GEN_MAX : ℤ) < max_word → gen_chars rand num_char min_word max_word wt cs0 = none)
    ∧ ((∃ c ∈ (cs0.getD default_charset).take MAX_CHARSET_LEN, str_char_to_int c < 0) →
        gen_chars rand num_char min_word max_word wt cs0 = none)
    ∧ (cs0.getD default_charset = [] →
        gen_chars rand num_char min_word max_word wt cs0 = none)
    ∧ (∀ w, wt = some w →
        (lookupWeights w (cs0.getD default_charset) = none
          ∨ ∃ tmp, lookupWeights w (cs0.getD default_charset) = some tmp ∧ tmp.sum = 0) →
        gen_chars rand num_char min_word max_word wt cs0 = none) := by
  refine ⟨?_, ?_, ?_, ?_, ?_, ?_, ?_, ?_, ?_⟩
  · intro h
    rw [gen_chars.eq_def, if_pos (Or.inl h)]
  · intro h
    rw [gen_chars.eq_def]
    split_ifs with h1 <;> first | rfl | omega
  · intro h
    rw [gen_chars.eq_def]
    split_ifs <;> rfl
  · intro h
    rw [gen_chars.eq_def]
    split_ifs <;> rfl
  · intro h
    rw [gen_chars.eq_def]
    split_ifs <;> rfl
  · intro h
    rw [gen_chars.eq_def]
    split_ifs <;> rfl
  · intro h
    obtain ⟨c, hcmem, hcneg⟩ := h
    rw [gen_chars.eq_def]
    split_ifs with h1 h2 h3 h4 h5 h6 <;> try rfl
    exfalso
    have := (str_is_clean_true_iff (cs0.getD default_charset)).mp
      (by cases hsc : str_is_clean (cs0.getD default_charset) with
          | true => rfl
          | false => exact absurd hsc h6) c hcmem
    omega
  · intro h
    rw [gen_chars.eq_def]
    split_ifs with h1 h2 h3 h4 h5 h6 h7 <;> try rfl
    exfalso
    exact h7 (by rw [h]; rfl)
  · intro w hw hzero
    subst hw
    rw [gen_chars.eq_def]
    split_ifs with h1 h2 h3 h4 h5 h6 h7 <;> try rfl
    dsimp only
    rcases hzero with hnone | ⟨tmp, hsome, hsum⟩
    · rw [hnone]
    · rw [hsome]
      dsimp only
      rw [if_pos hsum]

/-- Claim C6, counterexample to the claim as stated: a 51-character charset
whose 51st character is the unsupported 'A' passes `str_is_clean` (which
inspects only the first 50 characters) and, on the unweighted path, is not
validated further: `gen_chars` succeeds. -/
theorem C6_unvalidated_charset_counterexample :
    gen_chars (fun _ => 0) 3 1 1 none (some (List.replicate 50 'a' ++ ['A'])) = some ['a']
    ∧ 'A' ∈ List.replicate 50 'a' ++ ['A']
    ∧ str_char_to_int 'A' < 0 := by
  refine ⟨?_, by decide, by decide⟩
  have hclean : str_is_clean (List.replicate 50 'a' ++ ['A']) = true := by decide
  rw [gen_chars.eq_def]
  norm_num [GEN_MAX, hclean]
  rw [genLoop]
  norm_num [wordLen, emitWord, drawChar, genLoop]
  decide

/-- Witness for C6 at a concrete invalid call. -/
theorem C6_gen_chars_validation_witness :
    (0 : ℤ) < 1
    ∧ gen_chars (fun _ => 0) 5 0 3 none none = none :=
  ⟨by norm_num,
   (C6_gen_chars_validation (fun _ => 0) 5 0 3 none none).1 (by norm_num)⟩

end MorseFocus

namespace MorseFocus

/-! ### Weighted-sampling lemmas (gen.c lines 75-139) -/

theorem lookupWeights_length (w : ℕ → ℚ) (cs : List Char) (tmp : List ℚ)
    (h : lookupWeights w cs = some tmp) : tmp.length = cs.length := by
  induction cs generalizing tmp with
  | nil =>
    rw [lookupWeights] at h
    obtain rfl : ([] : List ℚ) = tmp := by injection h
    rfl
  | cons c cs ih =>
    rw [lookupWeights] at h
    split_ifs at h
    cases hrec : lookupWeights w cs with
    | none => rw [hrec] at h; simp at h
    | some tl =>
      rw [hrec] at h
      simp only [Option.map_some'] at h
      obtain rfl : w (str_char_to_int c).toNat :: tl = tmp := by injection h
      simp [ih tl hrec]

theorem lookupWeights_mem (w : ℕ → ℚ) (cs : List Char) (tmp : List ℚ)
    (h : lookupWeights w cs = some tmp) : ∀ x ∈ tmp, ∃ k, x = w k := by
  induction cs generalizing tmp with
  | nil =>
    rw [lookupWeights] at h
    obtain rfl : ([] : List ℚ) = tmp := by injection h
    intro x hx
    simp at hx
  | cons c cs ih =>
    rw [lookupWeights] at h
    split_ifs at h
    cases hrec : lookupWeights w cs with
    | none => rw [hrec] at h; simp at h
    | some tl =>
      rw [hrec] at h
      simp only [Option.map_some'] at h
      obtain rfl : w (str_char_to_int c).toNat :: tl = tmp := by injection h
      intro x hx
      rcases List.mem_cons.mp hx with hx | hx
      · exact ⟨(str_char_to_int c).toNat, hx⟩
      · exact ih tl hrec x hx

theorem prefixSums_length (xs : List ℚ) (a : ℚ) :
    (prefixSums xs a).length = xs.length := by
  induction xs generalizing a with
  | nil => rfl
  | cons x xs ih => simp [prefixSums, ih]

theorem prefixSums_getD (xs : List ℚ) (a : ℚ) (j : ℕ) (hj : j < xs.length) :
    (prefixSums xs a).getD j 0 = a + (xs.take (j + 1)).sum := by
  induction xs generalizing a j with
  | nil => simp at hj
  | cons x xs ih =>
    cases j with
    | zero => simp [prefixSums]
    | succ j =>
      have hj' : j < xs.length := by simpa using hj
      rw [prefixSums, List.getD_cons_succ, ih (a + x) j hj',
        List.take_succ_cons, List.sum_cons]
      ring

theorem cdfOf_length (tmp : List ℚ) (s : ℚ) : (cdfOf tmp s).length = tmp.length := by
  simp [cdfOf, prefixSums_length]

theorem cdfOf_getD (tmp : List ℚ) (s : ℚ) (j : ℕ) (hj : j < tmp.length) :
    (cdfOf tmp s).getD j 0 = (tmp.take (j + 1)).sum / s := by
  have hl : j < (prefixSums tmp 0).length := by rw [prefixSums_length]; exact hj
  have hl3 : j < ((prefixSums tmp 0).map (fun a => a / s)).length := by
    simpa using hl
  rw [cdfOf, List.getD_eq_getElem _ _ hl3, List.getElem_map,
    ← List.getD_eq_getElem _ 0 hl, prefixSums_getD tmp 0 j hj, zero_add]

theorem sum_take_le (l : List ℚ) (hpos : ∀ x ∈ l, 0 ≤ x) (m n : ℕ) (hmn : m ≤ n) :
    (l.take m).sum ≤ (l.take n).sum := by
  induction n with
  | zero =>
    obtain rfl : m = 0 := by omega
    exact le_rfl
  | succ n ih =>
    rcases Nat.lt_or_ge m (n + 1) with h | h
    · refine le_trans (ih (by omega)) ?_
      by_cases hn : n < l.length
      · rw [List.sum_take_succ l n hn]
        have h0 : 0 ≤ l[n] := hpos _ (List.getElem_mem hn)
        linarith
      · rw [List.take_of_length_le (by omega), List.take_of_length_le (by omega)]
    · obtain rfl : m = n + 1 := by omega
      exact le_rfl

theorem cdfOf_mono (tmp : List ℚ) (s : ℚ) (hpos : ∀ x ∈ tmp, 0 ≤ x) (hs : 0 < s)
    (i j : ℕ) (hij : i ≤ j) (hj : j < tmp.length) :
    (cdfOf tmp s).getD i 0 ≤ (cdfOf tmp s).getD j 0 := by
  rw [cdfOf_getD tmp s i (lt_of_le_of_lt hij hj), cdfOf_getD tmp s j hj]
  have hle := sum_take_le tmp hpos (i + 1) (j + 1) (by omega)
  exact div_le_div_of_nonneg_right hle hs.le

theorem cdfOf_last (tmp : List ℚ) (hne : tmp ≠ []) (hs : tmp.sum ≠ 0) :
    (cdfOf tmp tmp.sum).getD (tmp.length - 1) 0 = 1 := by
  have hlen : 0 < tmp.length := List.length_pos.mpr hne
  rw [cdfOf_getD tmp tmp.sum _ (by omega)]
  have heq : tmp.length - 1 + 1 = tmp.length := by omega
  rw [heq, List.take_length, div_self hs]

theorem lowerBound_spec (cdf : List ℚ) (r : ℚ)
    (hmono : ∀ i j : ℕ, i ≤ j → j < cdf.length → cdf.getD i 0 ≤ cdf.getD j 0)
    (fuel lo hi : ℕ)
    (hhi : hi < cdf.length) (hlohi : lo ≤ hi) (hfuel : hi - lo < fuel)
    (hlo : ∀ k, k < lo → cdf.getD k 0 < r)
    (hr : r ≤ cdf.getD hi 0) :
    lo ≤ lowerBound cdf r fuel lo hi ∧ lowerBound cdf r fuel lo hi ≤ hi
    ∧ r ≤ cdf.getD (lowerBound cdf r fuel lo hi) 0
    ∧ ∀ k, k < lowerBound cdf r fuel lo hi → cdf.getD k 0 < r := by
  induction fuel generalizing lo hi with
  | zero => exact absurd hfuel (by omega)
  | succ f ih =>
    rw [lowerBound]
    by_cases hlt : lo < hi
    · rw [if_pos hlt]
      set mid := (lo + hi) / 2 with hmid
      have hmlo : lo ≤ mid := by omega
      have hmhi : mid < hi := by omega
      by_cases hc : cdf.getD mid 0 < r
      · rw [if_pos hc]
        have hlo' : ∀ k, k < mid + 1 → cdf.getD k 0 < r := by
          intro k hk
          exact lt_of_le_of_lt (hmono k mid (by omega) (by omega)) hc
        obtain ⟨h1, h2, h3, h4⟩ := ih (mid + 1) hi hhi (by omega) (by omega) hlo' hr
        exact ⟨by omega, h2, h3, h4⟩
      · rw [if_neg hc]
        have hr' : r ≤ cdf.getD mid 0 := le_of_not_lt hc
        obtain ⟨h1, h2, h3, h4⟩ := ih lo mid (by omega) hmlo (by omega) hlo hr'
        exact ⟨h1, by omega, h3, h4⟩
    · rw [if_neg hlt]
      have heq : lo = hi := by omega
      subst heq
      exact ⟨le_rfl, le_rfl, hr, hlo⟩

/-- Claim C5: in the weighted path of `gen_chars`, sampling follows the exact
inverse-CDF construction.  (a) If the looked-up charset weights sum to
exactly zero the call fails with no output.  (b) The temporary weight list
has one entry per charset character, and the CDF entry at index `j` is the
normalized prefix sum of the first `j + 1` weights.  (c) For nonnegative
weights with positive sum and any uniform draw `r` in `[0, 1)`, the drawn
character is `charset[i]` where `i` is the result of the lower-bound binary
search over `charset.length` entries (not the full weight array), and `i`
is exactly the smallest index whose CDF entry is `≥ r`: every smaller index
has a CDF entry `< r`, ties resolved toward the smaller index. -/
theorem C5_weighted_sampling (w : ℕ → ℚ) (charset : List Char) (tmp : List ℚ)
    (hw : ∀ k, 0 ≤ w k)
    (hlk : lookupWeights w charset = some tmp) :
    (∀ rand num_char mw Mw, tmp.sum = 0 →
        gen_chars rand num_char mw Mw (some w) (some charset) = none)
    ∧ tmp.length = charset.length
    ∧ (∀ j, j < tmp.length →
        (cdfOf tmp tmp.sum).getD j 0 = (tmp.take (j + 1)).sum / tmp.sum)
    ∧ (∀ r : ℚ, 0 ≤ r → r < 1 → 0 < tmp.sum →
        drawChar charset (some (cdfOf tmp tmp.sum)) r =
          charset.getD
            (lowerBound (cdfOf tmp tmp.sum) r charset.length 0 (charset.length - 1)) ' '
        ∧ ∃ i, i < charset.length
          ∧ drawChar charset (some (cdfOf tmp tmp.sum)) r = charset.getD i ' '
          ∧ r ≤ (cdfOf tmp tmp.sum).getD i 0
          ∧ ∀ k, k < i → (cdfOf tmp tmp.sum).getD k 0 < r) := by
  have hlen := lookupWeights_length w charset tmp hlk
  refine ⟨?_, hlen, fun j hj => cdfOf_getD tmp tmp.sum j hj, ?_⟩
  · intro rand num_char mw Mw hsum
    rw [gen_chars.eq_def]
    split_ifs <;> try rfl
    dsimp only
    simp only [Option.getD_some]
    rw [hlk]
    dsimp only
    rw [if_pos hsum]
  · intro r hr0 hr1 hs
    have hpos : ∀ x ∈ tmp, 0 ≤ x := by
      intro x hx
      obtain ⟨k, rfl⟩ := lookupWeights_mem w charset tmp hlk x hx
      exact hw k
    have hne : tmp ≠ [] := by
      rintro rfl
      simp at hs
    have hlen0 : 0 < tmp.length := List.length_pos.mpr hne
    have hclen : (cdfOf tmp tmp.sum).length = tmp.length := cdfOf_length tmp tmp.sum
    have hmono : ∀ i j : ℕ, i ≤ j → j < (cdfOf tmp tmp.sum).length →
        (cdfOf tmp tmp.sum).getD i 0 ≤ (cdfOf tmp tmp.sum).getD j 0 := by
      intro i j hij hj
      exact cdfOf_mono tmp tmp.sum hpos hs i j hij (hclen ▸ hj)
    have hlast : r ≤ (cdfOf tmp tmp.sum).getD (tmp.length - 1) 0 := by
      rw [cdfOf_last tmp hne (ne_of_gt hs)]
      linarith
    rw [hlen] at hlast
    obtain ⟨h1, h2, h3, h4⟩ := lowerBound_spec (cdfOf tmp tmp.sum) r hmono
      charset.length 0 (charset.length - 1)
      (by rw [hclen, hlen]; omega) (by omega) (by omega)
      (fun k hk => absurd hk (Nat.not_lt_zero k)) hlast
    refine ⟨rfl, lowerBound (cdfOf tmp tmp.sum) r charset.length 0 (charset.length - 1),
      by omega, rfl, h3, h4⟩

/-- Witness for C5: uniform weights 1 over the two-character charset "ab". -/
theorem C5_weighted_sampling_witness :
    (∀ k : ℕ, (0 : ℚ) ≤ (fun _ : ℕ => (1 : ℚ)) k)
    ∧ lookupWeights (fun _ : ℕ => (1 : ℚ)) ['a', 'b'] = some [1, 1]
    ∧ ((∀ rand num_char mw Mw, ([(1 : ℚ), 1]).sum = 0 →
          gen_chars rand num_char mw Mw (some (fun _ : ℕ => (1 : ℚ)))
            (some ['a', 'b']) = none)
      ∧ ([(1 : ℚ), 1]).length = (['a', 'b'] : List Char).length
      ∧ (∀ j, j < ([(1 : ℚ), 1]).length →
          (cdfOf [(1 : ℚ), 1] ([(1 : ℚ), 1]).sum).getD j 0
            = (([(1 : ℚ), 1]).take (j + 1)).sum / ([(1 : ℚ), 1]).sum)
      ∧ (∀ r : ℚ, 0 ≤ r → r < 1 → 0 < ([(1 : ℚ), 1]).sum →
          drawChar ['a', 'b'] (some (cdfOf [(1 : ℚ), 1] ([(1 : ℚ), 1]).sum)) r =
            (['a', 'b'] : List Char).getD
              (lowerBound (cdfOf [(1 : ℚ), 1] ([(1 : ℚ), 1]).sum) r
                (['a', 'b'] : List Char).length 0
                ((['a', 'b'] : List Char).length - 1)) ' '
          ∧ ∃ i, i < (['a', 'b'] : List Char).length
            ∧ drawChar ['a', 'b'] (some (cdfOf [(1 : ℚ), 1] ([(1 : ℚ), 1]).sum)) r
                = (['a', 'b'] : List Char).getD i ' '
            ∧ r ≤ (cdfOf [(1 : ℚ), 1] ([(1 : ℚ), 1]).sum).getD i 0
            ∧ ∀ k, k < i → (cdfOf [(1 : ℚ), 1] ([(1 : ℚ), 1]).sum).getD k 0 < r)) :=
  ⟨fun _ => zero_le_one, by decide,
    C5_weighted_sampling (fun _ : ℕ => (1 : ℚ)) ['a', 'b'] [1, 1]
      (fun _ => zero_le_one) (by decide)⟩

end MorseFocus
